import Mathlib

/-!
Verification of the second-brain retrieval pipeline.

This file gives a shallow embedding of the core of the pipeline:

* `chunk_text` and the batch entry point `chunk_notes`
  (scripts/chunk_notes.py),
* `normalize_whitespace` (scripts/load_csv.py),
* `generate_embeddings`, the vector index build and the slot-keyed
  metadata store (scripts/build_embeddings.py),
* `Retriever.retrieve` (scripts/retrieve.py).

Python strings are modelled as `List Char`, Python integers as `Nat`,
floating point vectors as lists of rationals, dictionaries as
association lists, and the possibly non-terminating chunking loop as a
fuel-indexed function returning `Option` (`none` means the loop has not
terminated within the given fuel).  The external libraries (the
sentence-transformers embedder and the faiss flat index) are not part of
the repository; their behaviour is modelled from the spec where a claim
depends on it, and the corresponding definitions say so in their doc
comments.
-/

namespace SecondBrain

/-- Python constant `CHUNK_SIZE` from config/settings.py. -/
def CHUNK_SIZE : Nat := 512

/-- Python constant `CHUNK_OVERLAP` from config/settings.py. -/
def CHUNK_OVERLAP : Nat := 50

/-- Python constant `TOP_K` from config/settings.py. -/
def TOP_K : Nat := 10

/-- The while loop of `chunk_text` (scripts/chunk_notes.py, lines 36-46),
with explicit fuel.  One recursive call is one loop iteration:

* while `start < len(text)`: emit `text[start : start + chunk_size]`,
  set `start = (start + chunk_size) - overlap`, break if the new
  `start >= len(text)`.

`none` means the fuel ran out, that is, the Python loop has not
terminated within `fuel` iterations.  Subtraction is `Nat` subtraction;
it differs from the Python `int` subtraction only in runs in which the
Python `start` becomes negative, and such runs never return. -/
def chunkLoop (text : List Char) (chunk_size overlap : Nat) :
    Nat → Nat → List (List Char) → Option (List (List Char))
  | 0, _, _ => none
  | fuel + 1, start, chunks =>
    if start < text.length then
      if text.length ≤ start + chunk_size - overlap then
        some (chunks ++ [(text.drop start).take chunk_size])
      else
        chunkLoop text chunk_size overlap fuel (start + chunk_size - overlap)
          (chunks ++ [(text.drop start).take chunk_size])
    else some chunks

/-- Python `chunk_text(text, chunk_size, overlap)` from
scripts/chunk_notes.py.  If `len(text) <= chunk_size` the whole text is
returned as a single chunk; otherwise the windowing loop runs.  The
fuel `text.length + 1` is large enough for every terminating run of the
Python loop, since a terminating run advances `start` by at least one
per iteration; `none` therefore means the Python call does not
terminate. -/
def chunk_text (text : List Char) (chunk_size overlap : Nat) :
    Option (List (List Char)) :=
  if text.length ≤ chunk_size then some [text]
  else chunkLoop text chunk_size overlap (text.length + 1) 0 []

/-- Joining chunks in order, removing the `overlap`-length duplicated
prefix from every chunk after the first (spec section 8, property 1). -/
def reconstruct (overlap : Nat) : List (List Char) → List Char
  | [] => []
  | c :: rest => c ++ (rest.map (List.drop overlap)).flatten

/-- Whitespace class used by `normalize_whitespace`: the ASCII
characters matched by the Python regular expression class for
whitespace.  (Python also matches some further Unicode whitespace; the
proofs below depend only on the facts that the class is determined by
the character and that it contains the space character.) -/
def isSpace (c : Char) : Bool :=
  c = ' ' || c = '\t' || c = '\n' || c = '\r' || c = '\x0b' || c = '\x0c'

/-- Substituting every maximal run of whitespace by a single space, as
the regular-expression substitution in `normalize_whitespace`
(scripts/load_csv.py, line 34) does: inside a run all characters but
the last are dropped, and the last is replaced by a space. -/
def collapseWS : List Char → List Char
  | [] => []
  | [c] => [if isSpace c then ' ' else c]
  | c1 :: c2 :: rest =>
    if isSpace c1 && isSpace c2 then collapseWS (c2 :: rest)
    else (if isSpace c1 then ' ' else c1) :: collapseWS (c2 :: rest)

/-- Python `str.strip()`: drop leading and trailing whitespace. -/
def pyStrip (l : List Char) : List Char :=
  ((l.dropWhile isSpace).reverse.dropWhile isSpace).reverse

/-- Python `normalize_whitespace(text)` from scripts/load_csv.py for a
string argument: empty input yields the empty string, otherwise every
maximal whitespace run is collapsed to one space and the ends are
stripped.  (The `pd.isna` branch concerns missing values of the data
frame, which are not strings and are not modelled.) -/
def normalize_whitespace (text : List Char) : List Char :=
  if text = [] then [] else pyStrip (collapseWS text)

/-- Adjacent characters are not both whitespace.  `List.Chain' wsRel l`
states that `l` has no two adjacent whitespace characters. -/
def wsRel (a b : Char) : Prop := ¬(isSpace a = true ∧ isSpace b = true)

/-- One row of the cleaned notes data frame as `chunk_notes` reads it:
the (possibly non-contiguous, since empty notes were dropped) original
index, the cleaned text and the two optional timestamps. -/
structure NoteRow where
  idx : Nat
  text_clean : List Char
  created_at : Option Int
  modified_at : Option Int
deriving DecidableEq

/-- One chunk dictionary as built by `chunk_notes`
(scripts/chunk_notes.py, lines 69-77). -/
structure Chunk where
  chunk_id : Nat
  original_index : Nat
  chunk_index : Nat
  text : List Char
  created_at : Option Int
  modified_at : Option Int
  total_chunks : Nat
deriving DecidableEq

/-- The chunk dictionary built in the inner loop of `chunk_notes` for
the chunk at per-note position `ic.1` with content `ic.2`, when the
global counter stood at `cid` on entry to the note and the note
produced `total` chunks. -/
def mkChunk (r : NoteRow) (cid total : Nat) (ic : Nat × List Char) : Chunk :=
  { chunk_id := cid + ic.1, original_index := r.idx, chunk_index := ic.1,
    text := ic.2, created_at := r.created_at, modified_at := r.modified_at,
    total_chunks := total }

/-- The loop of `chunk_notes` over the rows of the data frame
(scripts/chunk_notes.py, lines 62-80), threading the global `chunk_id`
counter.  For each row the chunks of its text are appended, each with
the current counter value, and the counter advances by the number of
chunks of the row.  `none` propagates a non-terminating `chunk_text`
call (with the configured sizes this never happens). -/
def chunkRows : List NoteRow → Nat → Option (List Chunk)
  | [], _ => some []
  | r :: rs, cid =>
    match chunk_text r.text_clean CHUNK_SIZE CHUNK_OVERLAP with
    | none => none
    | some cs =>
      match chunkRows rs (cid + cs.length) with
      | none => none
      | some rest => some ((cs.enum.map (mkChunk r cid cs.length)) ++ rest)

/-- Python `chunk_notes()`: chunk every row, with the global counter
starting at zero. -/
def chunk_notes (rows : List NoteRow) : Option (List Chunk) :=
  chunkRows rows 0

/-- Embedding vectors, idealized over the rationals. -/
abbrev Vec := List ℚ

/-- Squared Euclidean distance between two vectors, the metric of the
flat index (spec section 4.4). -/
def sqDist (a b : Vec) : ℚ :=
  ((a.zip b).map (fun p => (p.1 - p.2) ^ 2)).sum

/-- The batching loop of `generate_embeddings`
(scripts/build_embeddings.py, lines 71-78): encode `batch_size` texts
at a time and concatenate the batches, with fuel bounding the number of
iterations (`texts.length` iterations always suffice for a positive
batch size).  The model `embed` is the black-box per-text embedder. -/
def encodeBatches (embed : List Char → Vec) (batch_size : Nat) :
    Nat → List (List Char) → List Vec
  | 0, _ => []
  | _ + 1, [] => []
  | fuel + 1, t :: ts =>
    ((t :: ts).take batch_size).map embed ++
      encodeBatches embed batch_size fuel ((t :: ts).drop batch_size)

/-- Python `generate_embeddings` restricted to its embedding stage: the
texts are encoded in batches of 32 and the batches are stacked in
order. -/
def generate_embeddings (embed : List Char → Vec) (texts : List (List Char)) :
    List Vec :=
  encodeBatches embed 32 texts.length texts

/-- Modelled from the spec: `faiss.IndexFlatL2.add` is not part of the
repository; per spec section 4.4 the index stores the given vectors in
insertion order, slot `i` holding the `i`-th vector. -/
def buildIndex (vectors : List Vec) : List Vec := vectors

/-- One value of the metadata mapping built by `generate_embeddings`
(scripts/build_embeddings.py, lines 85-94). -/
structure MetaRecord where
  chunk_id : Nat
  text : List Char
  original_index : Nat
  created_at : Option Int
  modified_at : Option Int
deriving DecidableEq

/-- The metadata record of one chunk, as the dictionary comprehension
of `generate_embeddings` builds it. -/
def chunkMeta (c : Chunk) : MetaRecord :=
  { chunk_id := c.chunk_id, text := c.text,
    original_index := c.original_index, created_at := c.created_at,
    modified_at := c.modified_at }

/-- The metadata mapping of `generate_embeddings`: the dictionary
`{str(i): record of chunks[i]}`, modelled as an association list keyed
by the stringified slot index. -/
def buildMetadata (chunks : List Chunk) : List (String × MetaRecord) :=
  chunks.enum.map (fun ic => (toString ic.1, chunkMeta ic.2))

/-- Comparison of (slot, distance) pairs by distance. -/
def distLE (a b : Nat × ℚ) : Prop := a.2 ≤ b.2

instance : DecidableRel distLE :=
  fun a b => inferInstanceAs (Decidable (a.2 ≤ b.2))

instance : IsTotal (Nat × ℚ) distLE := ⟨fun a b => le_total a.2 b.2⟩

instance : IsTrans (Nat × ℚ) distLE := ⟨fun _ _ _ h1 h2 => le_trans h1 h2⟩

/-- The distance of the query to every slot of the index, in slot
order. -/
def slotDistances (index : List Vec) (q : Vec) : List (Nat × ℚ) :=
  index.enum.map (fun iv => (iv.1, sqDist q iv.2))

/-- Modelled from the spec: `faiss.IndexFlatL2.search` is not part of
the repository; per spec section 4.4 an exact flat search returns the
slots sorted ascending by squared Euclidean distance to the query,
clamped to at most the number of stored vectors when `k` exceeds it
(`List.take` clamps). -/
def searchIndex (index : List Vec) (q : Vec) (k : Nat) : List (Nat × ℚ) :=
  (List.insertionSort distLE (slotDistances index q)).take k

/-- One element of the result list of `Retriever.retrieve`
(scripts/retrieve.py, lines 81-88). -/
structure RetrievedResult where
  text : List Char
  chunk_id : Nat
  original_index : Nat
  created_at : Option Int
  modified_at : Option Int
  distance : ℚ
deriving DecidableEq

/-- A default result, used only as the `Option.getD` fallback in
statements about the filtered result list. -/
def emptyResult : RetrievedResult :=
  { text := [], chunk_id := 0, original_index := 0, created_at := none,
    modified_at := none, distance := 0 }

/-- The state of the `Retriever` class after `__init__`: the loaded
index and the loaded slot-keyed metadata mapping. -/
structure Retriever where
  index : List Vec
  metadata : List (String × MetaRecord)

/-- The body of the result loop of `Retriever.retrieve` for one
returned slot: look the slot up in the metadata under its stringified
index; a hit yields a result dictionary, a miss yields nothing. -/
def lookupResult (r : Retriever) (h : Nat × ℚ) : Option RetrievedResult :=
  match r.metadata.lookup (toString h.1) with
  | some m =>
    some { text := m.text, chunk_id := m.chunk_id,
           original_index := m.original_index, created_at := m.created_at,
           modified_at := m.modified_at, distance := h.2 }
  | none => none

/-- Python `Retriever.retrieve(query, top_k)` from scripts/retrieve.py,
taking the already embedded query vector (the embedder is an external
black box): search the index for `min(top_k, ntotal)` nearest slots and
keep, in order, the results of the slots that have a metadata record. -/
def Retriever.retrieve (r : Retriever) (q : Vec) (top_k : Nat) :
    List RetrievedResult :=
  (searchIndex r.index q (min top_k r.index.length)).filterMap
    (lookupResult r)

/-- The chunk list that `chunk_notes` produces on `sampleRows`. -/
def sampleChunks : List Chunk :=
  [{ chunk_id := 0, original_index := 0, chunk_index := 0,
     text := ['h', 'i'], created_at := none, modified_at := none,
     total_chunks := 1 },
   { chunk_id := 1, original_index := 2, chunk_index := 0,
     text := ['y', 'o'], created_at := none, modified_at := none,
     total_chunks := 1 }]

/-- Concrete value of `chunk_text` on ten characters with window five
and overlap two, used by counterexamples and witnesses below. -/
def tenChars : List Char := List.replicate 10 'a'

/-- The four chunks that `chunk_text` produces on `tenChars` with
window five and overlap two. -/
def tenCharsChunks : List (List Char) :=
  [List.replicate 5 'a', List.replicate 5 'a', List.replicate 4 'a',
   List.replicate 1 'a']

/-- Sample chunk used by concrete witnesses. -/
def chunkA : Chunk :=
  { chunk_id := 7, original_index := 0, chunk_index := 0, text := ['a'],
    created_at := none, modified_at := none, total_chunks := 2 }

/-- Sample chunk used by concrete witnesses. -/
def chunkB : Chunk :=
  { chunk_id := 9, original_index := 0, chunk_index := 1, text := ['b'],
    created_at := none, modified_at := none, total_chunks := 2 }

/-- Sample rows used by concrete witnesses. -/
def sampleRows : List NoteRow :=
  [{ idx := 0, text_clean := ['h', 'i'], created_at := none,
     modified_at := none },
   { idx := 2, text_clean := ['y', 'o'], created_at := none,
     modified_at := none }]

/-! ## Lemmas about the chunking loop -/

/-- The accumulator of `chunkLoop` only ever receives further chunks
appended on the right. -/
theorem chunkLoop_acc (text : List Char) (cs ov : Nat) :
    ∀ (fuel start : Nat) (acc : List (List Char)),
      chunkLoop text cs ov fuel start acc =
        (chunkLoop text cs ov fuel start []).map (fun l => acc ++ l) := by
  intro fuel
  induction fuel with
  | zero => intro start acc; rfl
  | succ f ih =>
    intro start acc
    by_cases h1 : start < text.length
    · by_cases h2 : text.length ≤ start + cs - ov
      · simp [chunkLoop, h1, h2]
      · simp only [chunkLoop, if_pos h1, if_neg h2]
        rw [ih (start + cs - ov) (acc ++ [(text.drop start).take cs]),
          ih (start + cs - ov) ([] ++ [(text.drop start).take cs])]
        cases chunkLoop text cs ov f (start + cs - ov) [] <;> simp
    · simp [chunkLoop, h1]

/-- For a valid configuration the loop terminates from any position,
and chunk `i` of the produced list is the window starting at offset
`i * (cs - ov)` past the entry position, clipped at the end of the
text. -/
theorem chunkLoop_lengths (text : List Char) (cs ov : Nat) (hov : ov < cs) :
    ∀ (fuel start : Nat), start < text.length → text.length - start ≤ fuel →
      ∃ l, chunkLoop text cs ov fuel start [] = some l ∧ l ≠ [] ∧
        ∀ i (hi : i < l.length),
          l[i].length = min cs (text.length - (start + i * (cs - ov))) := by
  intro fuel
  induction fuel with
  | zero => intro start h1 h2; exact absurd h2 (by omega)
  | succ f ih =>
    intro start h1 h2
    by_cases h3 : text.length ≤ start + cs - ov
    · refine ⟨[(text.drop start).take cs], by simp [chunkLoop, h1, h3],
        by simp, ?_⟩
      intro i hi
      have hi0 : i = 0 := by simp at hi; omega
      subst hi0
      simp [List.length_take, List.length_drop]
    · have h4 : start + (cs - ov) < text.length := by omega
      have h5 : text.length - (start + (cs - ov)) ≤ f := by omega
      have hstep : start + cs - ov = start + (cs - ov) := by omega
      obtain ⟨l2, hl2, hne, hlen⟩ := ih (start + (cs - ov)) h4 h5
      refine ⟨(text.drop start).take cs :: l2, ?_, by simp, ?_⟩
      · simp only [chunkLoop, if_pos h1, if_neg h3]
        rw [chunkLoop_acc, hstep, hl2]
        simp
      · intro i hi
        cases i with
        | zero => simp [List.length_take, List.length_drop]
        | succ j =>
          have hj : j < l2.length := by simpa using hi
          have harith : start + (cs - ov) + j * (cs - ov) =
              start + (j + 1) * (cs - ov) := by
            rw [Nat.succ_mul]; ring
          simp only [List.getElem_cons_succ]
          rw [hlen j hj, harith]

/-- For a valid configuration the loop terminates from any position,
its first chunk is the window at the entry position, and both the full
first chunk followed by the overlap-stripped rest, and the
overlap-stripped whole, tile the remaining text exactly. -/
theorem chunkLoop_reconstruct (text : List Char) (cs ov : Nat)
    (hov : ov < cs) :
    ∀ (fuel start : Nat), start < text.length → text.length - start ≤ fuel →
      ∃ tl, chunkLoop text cs ov fuel start [] =
          some ((text.drop start).take cs :: tl) ∧
        (text.drop start).take cs ++ (tl.map (List.drop ov)).flatten =
          text.drop start ∧
        ((text.drop start).take cs).drop ov ++
            (tl.map (List.drop ov)).flatten =
          text.drop (start + ov) := by
  intro fuel
  induction fuel with
  | zero => intro start h1 h2; exact absurd h2 (by omega)
  | succ f ih =>
    intro start h1 h2
    by_cases h3 : text.length ≤ start + cs - ov
    · refine ⟨[], by simp [chunkLoop, h1, h3], ?_, ?_⟩
      · have hlen : (text.drop start).length ≤ cs := by
          rw [List.length_drop]; omega
        simp [List.take_of_length_le hlen]
      · rw [List.drop_take, List.drop_drop]
        have hlen : (text.drop (start + ov)).length ≤ cs - ov := by
          rw [List.length_drop]; omega
        simp [List.take_of_length_le hlen]
    · have h4 : start + (cs - ov) < text.length := by omega
      have h5 : text.length - (start + (cs - ov)) ≤ f := by omega
      have hstep : start + cs - ov = start + (cs - ov) := by omega
      obtain ⟨tl2, hl2, hrec1, hrec2⟩ := ih (start + (cs - ov)) h4 h5
      have hco : start + (cs - ov) + ov = start + cs := by omega
      refine ⟨(text.drop (start + (cs - ov))).take cs :: tl2, ?_, ?_, ?_⟩
      · simp only [chunkLoop, if_pos h1, if_neg h3]
        rw [chunkLoop_acc, hstep, hl2]
        simp
      · rw [List.map_cons, List.flatten_cons, hrec2, hco]
        have hdd : text.drop (start + cs) = (text.drop start).drop cs := by
          rw [List.drop_drop]
        rw [hdd, List.take_append_drop]
      · rw [List.map_cons, List.flatten_cons, hrec2, hco, List.drop_take,
          List.drop_drop]
        have hdd : text.drop (start + cs) =
            (text.drop (start + ov)).drop (cs - ov) := by
          rw [List.drop_drop]; congr 1; omega
        rw [hdd, List.take_append_drop]

/-- Helper: exact length of every chunk of `chunk_text` for a valid
configuration: chunk `i` is the window at offset `i * (cs - ov)`,
clipped at the end of the text. -/
theorem chunk_text_length_eq (text : List Char) (cs ov : Nat)
    (l : List (List Char)) (hov : ov < cs)
    (h : chunk_text text cs ov = some l) :
    ∀ i (hi : i < l.length),
      l[i].length = min cs (text.length - i * (cs - ov)) := by
  unfold chunk_text at h
  by_cases hle : text.length ≤ cs
  · rw [if_pos hle] at h
    cases Option.some.inj h
    intro i hi
    have hi0 : i = 0 := by simp at hi; omega
    subst hi0
    simpa using (min_eq_right hle).symm
  · rw [if_neg hle] at h
    obtain ⟨l2, hl2, -, hlen⟩ :=
      chunkLoop_lengths text cs ov hov (text.length + 1) 0 (by omega)
        (by omega)
    rw [hl2] at h
    cases Option.some.inj h
    intro i hi
    simpa using hlen i hi

/-! ## Claim C1: missing overlap validation (code bug) -/

/-- Claim C1.  The code does not reject `overlap ≥ chunk_size`: on a
three-character text with `chunk_size = 2` and `overlap = 2` the window
never advances and the loop runs forever (the loop yields `none` for
every fuel, and `chunk_text` yields `none`), where the spec demands a
configuration error before chunking begins.  The second half of the
claim holds: for every valid configuration (`overlap < chunk_size`)
`chunk_text` terminates with a result. -/
theorem chunk_text_overlap_not_validated :
    (∀ fuel acc, chunkLoop (List.replicate 3 'a') 2 2 fuel 0 acc = none) ∧
    chunk_text (List.replicate 3 'a') 2 2 = none ∧
    (∀ (text : List Char) (cs ov : Nat), ov < cs →
      (chunk_text text cs ov).isSome = true) := by
  refine ⟨?_, by decide, ?_⟩
  · intro fuel
    induction fuel with
    | zero => intro acc; rfl
    | succ f ih =>
      intro acc
      have h1 : (0 : Nat) < (List.replicate 3 'a').length := by decide
      have h2 : ¬((List.replicate 3 'a').length ≤ 0 + 2 - 2) := by decide
      simp only [chunkLoop, if_pos h1, if_neg h2]
      simpa using ih (acc ++ [((List.replicate 3 'a').drop 0).take 2])
  · intro text cs ov hov
    unfold chunk_text
    by_cases hle : text.length ≤ cs
    · simp [hle]
    · rw [if_neg hle]
      obtain ⟨l, hl, -, -⟩ :=
        chunkLoop_lengths text cs ov hov (text.length + 1) 0 (by omega)
          (by omega)
      simp [hl]

/-- Witness for C1 at concrete inputs: the invalid configuration
diverges while a valid one terminates. -/
theorem chunk_text_overlap_not_validated_witness :
    chunk_text (List.replicate 3 'a') 2 2 = none ∧
    (chunk_text tenChars 5 2).isSome = true :=
  ⟨chunk_text_overlap_not_validated.2.1,
   chunk_text_overlap_not_validated.2.2 tenChars 5 2 (by decide)⟩

/-! ## Claim C2: chunk reconstruction -/

/-- Claim C2.  For a valid configuration, joining the first chunk with
every later chunk stripped of its `overlap`-character prefix
reproduces the text exactly. -/
theorem chunk_text_reconstruction (text : List Char) (cs ov : Nat)
    (l : List (List Char)) (hov : ov < cs)
    (h : chunk_text text cs ov = some l) :
    reconstruct ov l = text := by
  unfold chunk_text at h
  by_cases hle : text.length ≤ cs
  · rw [if_pos hle] at h
    cases Option.some.inj h
    simp [reconstruct]
  · rw [if_neg hle] at h
    obtain ⟨tl, hl, hr1, -⟩ :=
      chunkLoop_reconstruct text cs ov hov (text.length + 1) 0 (by omega)
        (by omega)
    rw [hl] at h
    cases Option.some.inj h
    simpa [reconstruct] using hr1

/-- Witness for C2 on a concrete ten-character text. -/
theorem chunk_text_reconstruction_witness :
    reconstruct 2 tenCharsChunks = tenChars :=
  chunk_text_reconstruction tenChars 5 2 tenCharsChunks (by decide)
    (by decide)

/-! ## Claim C3: chunk length profile (corrected) -/

/-- Counterexample to claim C3 as stated: it is not true that every
chunk other than the final one has length exactly `chunk_size`.  On
ten characters with `chunk_size = 5` and `overlap = 2` the produced
chunk lengths are 5, 5, 4, 1: the chunk at position 2 of 4 is short
but not final. -/
theorem chunk_text_short_chunk_before_final :
    ¬ ∀ (text : List Char) (cs ov : Nat) (l : List (List Char)),
        0 < cs → ov < cs → chunk_text text cs ov = some l →
        ∀ i (hi : i < l.length), i + 1 < l.length → l[i].length = cs := by
  intro hclaim
  have hc : chunk_text tenChars 5 2 = some tenCharsChunks := by decide
  have h2 := hclaim tenChars 5 2 tenCharsChunks (by decide) (by decide) hc 2
    (by decide) (by decide)
  exact absurd h2 (by decide)

/-- Amended claim C3.  For a valid configuration, chunk `i` has length
exactly `min chunk_size (len(text) - i * (chunk_size - overlap))`: a
chunk before the final position has length `chunk_size` only while its
window fits, and clipped short chunks can also occur before the final
position, forming a suffix of non-increasing lengths. -/
theorem chunk_text_length_profile (text : List Char) (cs ov : Nat)
    (l : List (List Char)) (hov : ov < cs)
    (h : chunk_text text cs ov = some l) :
    ∀ i (hi : i < l.length),
      l[i].length = min cs (text.length - i * (cs - ov)) :=
  chunk_text_length_eq text cs ov l hov h

/-- Witness for the amended C3 on a concrete ten-character text. -/
theorem chunk_text_length_profile_witness :
    (List.replicate 4 'a').length = min 5 (10 - 2 * (5 - 2)) := by
  have h := chunk_text_length_profile tenChars 5 2 tenCharsChunks
    (by decide) (by decide) 2 (by decide)
  exact h

/-! ## Claim C6: chunk size bound and short-text identity -/

/-- Claim C6.  A text no longer than `chunk_size` is returned whole as
the single chunk, and for a valid configuration every chunk has length
at most `chunk_size`. -/
theorem chunk_text_size_bound (text : List Char) (cs ov : Nat) :
    (text.length ≤ cs → chunk_text text cs ov = some [text]) ∧
    (ov < cs → ∀ l, chunk_text text cs ov = some l →
      ∀ c ∈ l, c.length ≤ cs) := by
  constructor
  · intro h
    simp [chunk_text, h]
  · intro hov l hl c hc
    obtain ⟨i, hi, rfl⟩ := List.mem_iff_getElem.mp hc
    rw [chunk_text_length_eq text cs ov l hov hl i hi]
    exact min_le_left _ _

/-- Witness for C6 on concrete texts of lengths three and ten. -/
theorem chunk_text_size_bound_witness :
    chunk_text (List.replicate 3 'a') 5 2 = some [List.replicate 3 'a'] ∧
    (List.replicate 4 'a').length ≤ 5 :=
  ⟨(chunk_text_size_bound (List.replicate 3 'a') 5 2).1 (by decide),
   (chunk_text_size_bound tenChars 5 2).2 (by decide) tenCharsChunks
     (by decide) (List.replicate 4 'a') (by decide)⟩

/-! ## Lemmas about the whitespace normalizer -/

/-- The first character of a collapsed nonempty list is the first
character of the input, except that a leading whitespace character
becomes a space. -/
theorem collapseWS_head? (c : Char) (l : List Char) :
    (collapseWS (c :: l)).head? = some (if isSpace c then ' ' else c) := by
  induction l generalizing c with
  | nil => rfl
  | cons c2 rest ih =>
    by_cases h : (isSpace c && isSpace c2) = true
    · obtain ⟨hc, hc2⟩ := Bool.and_eq_true_iff.mp h
      simp [collapseWS, h, ih, hc, hc2]
    · simp [collapseWS, h]

/-- A collapsed list has no two adjacent whitespace characters. -/
theorem collapseWS_chain (l : List Char) :
    List.Chain' wsRel (collapseWS l) := by
  induction l with
  | nil => simp [collapseWS]
  | cons c t ih =>
    cases t with
    | nil => simp [collapseWS]
    | cons c2 rest =>
      by_cases h : (isSpace c && isSpace c2) = true
      · simpa [collapseWS, h] using ih
      · simp only [collapseWS, if_neg h]
        refine List.chain'_cons'.mpr ⟨?_, ih⟩
        intro y hy
        rw [collapseWS_head?] at hy
        have hy2 : (if isSpace c2 then ' ' else c2) = y := by
          simpa using hy
        subst hy2
        by_cases hc : isSpace c = true
        · have hc2 : isSpace c2 = false := by
            cases hcs : isSpace c2
            · rfl
            · exact absurd (by simp [hc, hcs]) h
          simp [wsRel, hc, hc2]
        · simp [wsRel, hc]

/-- Every whitespace character of a collapsed list is the space
character. -/
theorem collapseWS_mem_space (l : List Char) :
    ∀ c ∈ collapseWS l, isSpace c = true → c = ' ' := by
  induction l with
  | nil => simp [collapseWS]
  | cons c t ih =>
    cases t with
    | nil =>
      intro x hx hsx
      by_cases hc : isSpace c = true
      · simp [collapseWS, hc] at hx
        exact hx
      · simp [collapseWS, hc] at hx
        subst hx
        exact absurd hsx (by simp [hc])
    | cons c2 rest =>
      by_cases h : (isSpace c && isSpace c2) = true
      · intro x hx hsx
        exact ih x (by simpa [collapseWS, h] using hx) hsx
      · intro x hx hsx
        simp only [collapseWS, if_neg h] at hx
        rcases List.mem_cons.mp hx with h1 | h2
        · by_cases hc : isSpace c = true
          · simp [hc] at h1
            exact h1
          · simp [hc] at h1
            subst h1
            exact absurd hsx (by simp [hc])
        · exact ih x h2 hsx

/-- Collapsing fixes a list that has no two adjacent whitespace
characters and whose whitespace characters are all spaces. -/
theorem collapseWS_fix (l : List Char) (hch : List.Chain' wsRel l)
    (hsp : ∀ c ∈ l, isSpace c = true → c = ' ') : collapseWS l = l := by
  induction l with
  | nil => rfl
  | cons c t ih =>
    cases t with
    | nil =>
      by_cases hc : isSpace c = true
      · have hcs : c = ' ' := hsp c (by simp) hc
        simp [collapseWS, hc, hcs]
      · simp [collapseWS, hc]
    | cons c2 rest =>
      have hrel : wsRel c c2 := (List.chain'_cons.mp hch).1
      have hna : ¬(isSpace c && isSpace c2) = true := by
        intro hand
        exact hrel (Bool.and_eq_true_iff.mp hand)
      simp only [collapseWS, if_neg hna]
      congr 1
      · by_cases hc : isSpace c = true
        · simp [hc, hsp c (by simp) hc]
        · simp [hc]
      · exact ih (List.chain'_cons.mp hch).2
          (fun x hx hsx => hsp x (by simp [hx]) hsx)

/-- The head of a `dropWhile` result does not satisfy the dropped
predicate. -/
theorem dropWhile_head_not (p : Char → Bool) (l : List Char) (c : Char)
    (h : (l.dropWhile p).head? = some c) : p c = false := by
  induction l with
  | nil => simp at h
  | cons a t ih =>
    rw [List.dropWhile_cons] at h
    by_cases ha : p a = true
    · rw [if_pos ha] at h
      exact ih h
    · rw [if_neg ha] at h
      cases Option.some.inj h
      simpa using ha

/-- `dropWhile` fixes a list whose head does not satisfy the
predicate. -/
theorem dropWhile_eq_self (p : Char → Bool) (l : List Char)
    (h : ∀ c, l.head? = some c → p c = false) : l.dropWhile p = l := by
  cases l with
  | nil => rfl
  | cons a t =>
    rw [List.dropWhile_cons, if_neg (by simp [h a rfl])]

/-- Dropping a prefix twice is the same as dropping it once. -/
theorem dropWhile_idem (p : Char → Bool) (l : List Char) :
    (l.dropWhile p).dropWhile p = l.dropWhile p :=
  dropWhile_eq_self p _ (fun c hc => dropWhile_head_not p l c hc)

/-- A stripped list extends, on the left, the list with only its
leading whitespace dropped. -/
theorem pyStrip_take_front (z : List Char) :
    pyStrip z <+: z.dropWhile isSpace := by
  unfold pyStrip
  have h1 : (z.dropWhile isSpace).reverse.dropWhile isSpace <:+
      (z.dropWhile isSpace).reverse := List.dropWhile_suffix isSpace
  rw [← List.reverse_reverse ((z.dropWhile isSpace).reverse.dropWhile isSpace)]
    at h1
  exact List.reverse_suffix.mp h1

/-- Every character of a stripped list is a character of the input. -/
theorem pyStrip_subset (z : List Char) : ∀ c ∈ pyStrip z, c ∈ z := by
  intro c hc
  have h1 : List.Sublist (pyStrip z) (z.dropWhile isSpace) :=
    List.IsPrefix.sublist (pyStrip_take_front z)
  have h2 : List.Sublist (z.dropWhile isSpace) z :=
    List.IsSuffix.sublist (List.dropWhile_suffix isSpace)
  exact (h1.trans h2).subset hc

/-- Stripping is idempotent. -/
theorem pyStrip_idem (z : List Char) : pyStrip (pyStrip z) = pyStrip z := by
  have hhead : ∀ c, (pyStrip z).head? = some c → isSpace c = false := by
    intro c hc
    obtain ⟨t, ht⟩ := pyStrip_take_front z
    have hz : (z.dropWhile isSpace).head? = some c := by
      rw [← ht]
      cases hps : pyStrip z with
      | nil => rw [hps] at hc; simp at hc
      | cons a b =>
        rw [hps] at hc
        cases Option.some.inj hc
        rfl
    exact dropWhile_head_not isSpace z c hz
  have h1 : (pyStrip z).dropWhile isSpace = pyStrip z :=
    dropWhile_eq_self isSpace _ hhead
  have h2 : (pyStrip z).reverse.dropWhile isSpace = (pyStrip z).reverse := by
    have hrev : (pyStrip z).reverse =
        ((z.dropWhile isSpace).reverse).dropWhile isSpace := by
      unfold pyStrip
      rw [List.reverse_reverse]
    rw [hrev]
    exact dropWhile_idem isSpace _
  show (((pyStrip z).dropWhile isSpace).reverse.dropWhile isSpace).reverse =
    pyStrip z
  rw [h1, h2, List.reverse_reverse]

/-! ## Claim C9: normalizer idempotence -/

/-- Claim C9.  The whitespace normalizer is idempotent. -/
theorem normalize_whitespace_idempotent (x : List Char) :
    normalize_whitespace (normalize_whitespace x) = normalize_whitespace x := by
  by_cases hx : x = []
  · simp [normalize_whitespace, hx]
  · have hnx : normalize_whitespace x = pyStrip (collapseWS x) := by
      rw [normalize_whitespace, if_neg hx]
    rw [hnx]
    by_cases hy : pyStrip (collapseWS x) = []
    · rw [normalize_whitespace, if_pos hy, hy]
    · rw [normalize_whitespace, if_neg hy]
      have hchain : List.Chain' wsRel (pyStrip (collapseWS x)) := by
        have h1 : List.Chain' wsRel ((collapseWS x).dropWhile isSpace) :=
          List.Chain'.suffix (collapseWS_chain x)
            (List.dropWhile_suffix isSpace)
        exact List.Chain'.prefix h1 (pyStrip_take_front (collapseWS x))
      have hsp : ∀ c ∈ pyStrip (collapseWS x), isSpace c = true → c = ' ' :=
        fun c hc hs =>
          collapseWS_mem_space x c (pyStrip_subset (collapseWS x) c hc) hs
      rw [collapseWS_fix _ hchain hsp]
      exact pyStrip_idem (collapseWS x)

/-! ## Lemmas about the embedding and metadata build -/

/-- Batched encoding with enough fuel is the order-preserving map of
the embedder over the texts. -/
theorem encodeBatches_eq_map (embed : List Char → Vec) (bs : Nat)
    (hbs : 0 < bs) :
    ∀ (fuel : Nat) (ts : List (List Char)), ts.length ≤ fuel →
      encodeBatches embed bs fuel ts = ts.map embed := by
  intro fuel
  induction fuel with
  | zero =>
    intro ts h
    have hts : ts = [] := List.length_eq_zero.mp (Nat.le_zero.mp h)
    subst hts
    rfl
  | succ f ih =>
    intro ts h
    cases ts with
    | nil => rfl
    | cons t ts2 =>
      have hlen : ((t :: ts2).drop bs).length ≤ f := by
        rw [List.length_drop]
        simp only [List.length_cons] at h ⊢
        omega
      show ((t :: ts2).take bs).map embed ++
          encodeBatches embed bs f ((t :: ts2).drop bs) = (t :: ts2).map embed
      rw [ih _ hlen, ← List.map_append, List.take_append_drop]

/-- The embedding stage maps the embedder over the texts in order. -/
theorem generate_embeddings_eq_map (embed : List Char → Vec)
    (texts : List (List Char)) :
    generate_embeddings embed texts = texts.map embed :=
  encodeBatches_eq_map embed 32 (by omega) texts.length texts le_rfl

/-- The metadata store holds, under the stringified slot index, the
record of the chunk at that slot. -/
theorem buildMetadata_mem (chunks : List Chunk) (i : Nat)
    (hi : i < chunks.length) :
    (toString i, chunkMeta chunks[i]) ∈ buildMetadata chunks :=
  List.mem_map.mpr ⟨(i, chunks[i]),
    List.mem_enum_iff_getElem?.mpr (by simp [List.getElem?_eq_getElem hi]),
    rfl⟩

/-! ## Claim C4: index and metadata slot alignment -/

/-- Claim C4.  Building the index and the metadata store from the same
chunk list aligns them: slot `i` of the index holds the embedding of
chunk `i`, and the metadata store holds, under key `str(i)`, a record
whose `chunk_id` is the `chunk_id` of chunk `i`. -/
theorem index_metadata_slot_alignment (embed : List Char → Vec)
    (chunks : List Chunk) (i : Nat) (hi : i < chunks.length) :
    (buildIndex (generate_embeddings embed (chunks.map Chunk.text)))[i]? =
      some (embed chunks[i].text) ∧
    (toString i, chunkMeta chunks[i]) ∈ buildMetadata chunks ∧
    (chunkMeta chunks[i]).chunk_id = chunks[i].chunk_id := by
  refine ⟨?_, buildMetadata_mem chunks i hi, rfl⟩
  rw [buildIndex, generate_embeddings_eq_map, List.getElem?_map,
    List.getElem?_map, List.getElem?_eq_getElem hi]
  rfl

/-- Witness for C4 on a concrete two-chunk list at slot one. -/
theorem index_metadata_slot_alignment_witness :
    (buildIndex (generate_embeddings (fun _ => ([] : Vec))
        ([chunkA, chunkB].map Chunk.text)))[1]? = some [] ∧
    (toString 1, chunkMeta chunkB) ∈ buildMetadata [chunkA, chunkB] := by
  have h := index_metadata_slot_alignment (fun _ => ([] : Vec))
    [chunkA, chunkB] 1 (by decide)
  exact ⟨h.1, h.2.1⟩

/-! ## Claim C10: chunk ids are global positions -/

/-- The loop of `chunk_notes` assigns global counter values that are
exactly the offsets from the entry counter value. -/
theorem chunkRows_chunk_id (rows : List NoteRow) :
    ∀ (cid : Nat) (l : List Chunk), chunkRows rows cid = some l →
      ∀ j (hj : j < l.length), l[j].chunk_id = cid + j := by
  induction rows with
  | nil =>
    intro cid l h j hj
    cases Option.some.inj h
    simp at hj
  | cons r rs ih =>
    intro cid l h j hj
    cases hct : chunk_text r.text_clean CHUNK_SIZE CHUNK_OVERLAP with
    | none =>
      simp only [chunkRows, hct] at h
      exact Option.noConfusion h
    | some cs =>
      cases hrec : chunkRows rs (cid + cs.length) with
      | none =>
        simp only [chunkRows, hct, hrec] at h
        exact Option.noConfusion h
      | some rest =>
        simp only [chunkRows, hct, hrec] at h
        cases Option.some.inj h
        have hlenm : (cs.enum.map (mkChunk r cid cs.length)).length =
            cs.length := by simp
        by_cases hjlt : j < cs.length
        · have hjm : j < (cs.enum.map (mkChunk r cid cs.length)).length := by
            omega
          rw [List.getElem_append_left hjm, List.getElem_map,
            List.getElem_enum]
          rfl
        · have hj2 : j < cs.length + rest.length := by
            simpa using hj
          have hge : (cs.enum.map (mkChunk r cid cs.length)).length ≤ j := by
            omega
          have hb : j - (cs.enum.map (mkChunk r cid cs.length)).length <
              rest.length := by
            rw [hlenm]; omega
          rw [List.getElem_append_right hge]
          refine (ih (cid + cs.length) rest hrec _ hb).trans ?_
          rw [hlenm]
          omega

/-- Claim C10.  After batch chunking, the `chunk_id` of every chunk is
its position in the output list, and a metadata store built from that
list therefore holds, at every slot key `str(i)`, a record whose
`chunk_id` is `i` itself. -/
theorem chunk_ids_are_global_positions (rows : List NoteRow)
    (l : List Chunk) (h : chunk_notes rows = some l) :
    (∀ j (hj : j < l.length), l[j].chunk_id = j) ∧
    (∀ i (hi : i < l.length),
      (toString i, chunkMeta l[i]) ∈ buildMetadata l ∧
      (chunkMeta l[i]).chunk_id = i) := by
  have hids : ∀ j (hj : j < l.length), l[j].chunk_id = j := by
    intro j hj
    simpa using chunkRows_chunk_id rows 0 l h j hj
  refine ⟨hids, fun i hi => ⟨buildMetadata_mem l i hi, ?_⟩⟩
  simpa [chunkMeta] using hids i hi

/-- Witness for C10 on two concrete one-chunk notes. -/
theorem chunk_ids_are_global_positions_witness :
    (sampleChunks.get ⟨1, by decide⟩).chunk_id = 1 :=
  (chunk_ids_are_global_positions sampleRows sampleChunks (by decide)).1 1
    (by decide)

/-! ## Lemmas about search and retrieval -/

/-- Keeping the defined values of an option-valued map is filtering the
defined positions and reading the values off. -/
theorem filterMap_eq_filter_map {α β : Type _} (f : α → Option β) (d : β) :
    ∀ l : List α, l.filterMap f =
      (l.filter (fun a => (f a).isSome)).map (fun a => (f a).getD d) := by
  intro l
  induction l with
  | nil => rfl
  | cons a t ih =>
    cases hfa : f a with
    | none => simp [List.filterMap_cons, List.filter_cons, hfa, ih]
    | some b => simp [List.filterMap_cons, List.filter_cons, hfa, ih]

/-- A slot yields a result exactly when its metadata lookup does. -/
theorem lookupResult_isSome (r : Retriever) (h : Nat × ℚ) :
    (lookupResult r h).isSome = (r.metadata.lookup (toString h.1)).isSome := by
  cases hm : r.metadata.lookup (toString h.1) with
  | none => simp [lookupResult, hm]
  | some m => simp [lookupResult, hm]

/-- The result built for a slot with a metadata record carries the
distance of the slot. -/
theorem lookupResult_distance (r : Retriever) (h : Nat × ℚ)
    (hs : (r.metadata.lookup (toString h.1)).isSome = true) :
    ((lookupResult r h).getD emptyResult).distance = h.2 := by
  cases hm : r.metadata.lookup (toString h.1) with
  | none => rw [hm] at hs; simp at hs
  | some m => simp [lookupResult, hm]

/-- Retrieval keeps, in search order, exactly the searched slots whose
metadata lookup succeeds, each turned into its result record. -/
theorem retrieve_eq (r : Retriever) (q : Vec) (k : Nat) :
    Retriever.retrieve r q k =
      ((searchIndex r.index q (min k r.index.length)).filter
          (fun h => (r.metadata.lookup (toString h.1)).isSome)).map
        (fun h => (lookupResult r h).getD emptyResult) := by
  unfold Retriever.retrieve
  rw [filterMap_eq_filter_map (lookupResult r) emptyResult]
  congr 1
  exact List.filter_congr (fun x _ => lookupResult_isSome r x)

/-! ## Claim C5: search ordering and exactness -/

/-- Claim C5.  Search results are sorted non-decreasing by distance,
every returned distance is the squared Euclidean distance of the query
to the vector stored at the returned slot, the first result is at least
as close as every indexed vector (exactness of the flat search), and
the retrieved results inherit the non-decreasing distance order. -/
theorem search_sorted_and_exact (r : Retriever) (q : Vec) (k : Nat) :
    List.Sorted distLE (searchIndex r.index q k) ∧
    (∀ p ∈ searchIndex r.index q k,
      ∃ v, r.index[p.1]? = some v ∧ p.2 = sqDist q v) ∧
    (∀ h0, (searchIndex r.index q k).head? = some h0 →
      ∀ v ∈ r.index, h0.2 ≤ sqDist q v) ∧
    List.Pairwise (fun a b => a.distance ≤ b.distance)
      (Retriever.retrieve r q k) := by
  have hsorted : List.Sorted distLE
      (List.insertionSort distLE (slotDistances r.index q)) :=
    List.sorted_insertionSort distLE (slotDistances r.index q)
  have hperm := List.perm_insertionSort distLE (slotDistances r.index q)
  refine ⟨?_, ?_, ?_, ?_⟩
  · exact List.Pairwise.sublist (List.take_sublist k _) hsorted
  · intro p hp
    have hp2 : p ∈ slotDistances r.index q :=
      hperm.mem_iff.mp ((List.take_sublist k _).subset hp)
    obtain ⟨⟨i, v⟩, hiv, hue⟩ := List.mem_map.mp hp2
    subst hue
    exact ⟨v, List.mem_enum_iff_getElem?.mp hiv, rfl⟩
  · intro h0 hh0 v hv
    unfold searchIndex at hh0
    rw [List.head?_take] at hh0
    by_cases hk : k = 0
    · rw [if_pos hk] at hh0
      exact Option.noConfusion hh0
    · rw [if_neg hk] at hh0
      cases hS : List.insertionSort distLE (slotDistances r.index q) with
      | nil => rw [hS] at hh0; exact Option.noConfusion hh0
      | cons s0 t =>
        rw [hS] at hh0
        cases Option.some.inj hh0
        obtain ⟨i, hilt, hieq⟩ := List.mem_iff_getElem.mp hv
        have hmem : (i, sqDist q v) ∈ slotDistances r.index q :=
          List.mem_map.mpr ⟨(i, v),
            List.mem_enum_iff_getElem?.mpr
              (by rw [List.getElem?_eq_getElem hilt, hieq]), rfl⟩
        have hmemS : (i, sqDist q v) ∈ h0 :: t := by
          rw [← hS]
          exact hperm.mem_iff.mpr hmem
        rcases List.mem_cons.mp hmemS with he | ht
        · rw [← he]
        · exact (List.sorted_cons.mp (hS ▸ hsorted)).1 (i, sqDist q v) ht
  · have hfilter : List.Sorted distLE
        ((searchIndex r.index q (min k r.index.length)).filter
          (fun h => (r.metadata.lookup (toString h.1)).isSome)) :=
      List.Pairwise.sublist (List.filter_sublist _)
        (List.Pairwise.sublist (List.take_sublist _ _) hsorted)
    rw [retrieve_eq, List.pairwise_map]
    refine List.Pairwise.imp_of_mem ?_ hfilter
    intro a b ha hb hab
    rw [lookupResult_distance r a (List.mem_filter.mp ha).2,
      lookupResult_distance r b (List.mem_filter.mp hb).2]
    exact hab

/-- Witness for C5: on an index of two one-dimensional vectors the
first search result for the zero query is at least as close as every
stored vector, here the vector at slot one with distance zero. -/
theorem search_sorted_and_exact_witness :
    ((1 : Nat), (0 : ℚ)).2 ≤ sqDist [(0 : ℚ)] [(2 : ℚ)] := by
  have hhead : (searchIndex [[(2 : ℚ)], [(0 : ℚ)]] [(0 : ℚ)] 2).head? =
      some (1, 0) := by
    norm_num [searchIndex, slotDistances, sqDist, List.insertionSort,
      List.orderedInsert, distLE, List.enum, List.enumFrom]
  exact (search_sorted_and_exact ⟨[[(2 : ℚ)], [(0 : ℚ)]], []⟩ [(0 : ℚ)] 2).2.2.1
    (1, 0) hhead [(2 : ℚ)] (List.mem_cons_self _ _)

/-! ## Claim C7: k is clamped to the index size -/

/-- Claim C7.  A search for `k` nearest slots returns exactly
`min k N` results for an index of `N` vectors (so `k > N` returns all
`N`, with no error), and retrieval returns at most `min top_k N`
results. -/
theorem search_k_clamping (r : Retriever) (q : Vec) (k : Nat) :
    (searchIndex r.index q k).length = min k r.index.length ∧
    (Retriever.retrieve r q k).length ≤ min k r.index.length := by
  have hsort : (List.insertionSort distLE (slotDistances r.index q)).length =
      r.index.length := by
    rw [(List.perm_insertionSort distLE (slotDistances r.index q)).length_eq]
    simp [slotDistances]
  constructor
  · rw [searchIndex, List.length_take, hsort]
  · calc (Retriever.retrieve r q k).length
        ≤ (searchIndex r.index q (min k r.index.length)).length :=
          List.length_filterMap_le _ _
      _ = min (min k r.index.length) r.index.length := by
          rw [searchIndex, List.length_take, hsort]
      _ = min k r.index.length := by omega

/-! ## Claim C8: missing metadata records are skipped -/

/-- Claim C8.  A searched slot with no metadata record is dropped and
every other searched slot with a record still produces its result, in
the original search order: retrieval equals filtering the searched
slots by metadata presence and mapping each survivor to its result. -/
theorem retrieve_skips_missing_metadata (r : Retriever) (q : Vec) (k : Nat) :
    Retriever.retrieve r q k =
      ((searchIndex r.index q (min k r.index.length)).filter
          (fun h => (r.metadata.lookup (toString h.1)).isSome)).map
        (fun h => (lookupResult r h).getD emptyResult) :=
  retrieve_eq r q k

end SecondBrain
